import Mathlib

/-!
Shallow embedding of the cephfs journal tool: the journal scanner of
`src/mds/JournalTool.cc` (`JournalScanner::scan`, `scan_header`,
`scan_events`, `obj_name`, `is_healthy`) and the journal dumper /
undumper of `src/tools/cephfs/Dumper.cc` (`Dumper::dump`,
`Dumper::undump`).

Bytes are modelled as `Nat` (values below 256), byte strings as
`List Nat`, and 64-bit stream offsets as `Nat`.  A `none` result of the
scanner models undefined behaviour in the source: the `assert(0)` that
fires when the scanner must resynchronise after a gap, and the
dereference of the null `header` pointer when the header object could
not be read.  Recursions that the C++ source writes as `while` loops are
given an explicit fuel argument so that every definition is executable
by the kernel; callers always pass enough fuel for the fuel branch to be
unreachable (each loop iteration consumes at least one element).
-/

/-- Little-endian value of the first `k` bytes of a byte string
(`::decode` of a fixed-width little-endian integer). -/
def leVal : Nat → List Nat → Nat
  | 0, _ => 0
  | _ + 1, [] => 0
  | k + 1, b :: t => b + 256 * leVal k t

/-- Little-endian encoding of `n` in exactly `k` bytes (`::encode` of a
fixed-width little-endian integer). -/
def leBytes : Nat → Nat → List Nat
  | 0, _ => []
  | k + 1, n => n % 256 :: leBytes k (n / 256)

/-- Little-endian base-10 digit list of `n`.  Fuel-based so that the
kernel can evaluate it; any `fuel ≥ n` gives the digits of `n`. -/
def decDigitsAux : Nat → Nat → List Nat
  | 0, _ => []
  | _ + 1, 0 => []
  | fuel + 1, n => n % 10 :: decDigitsAux fuel (n / 10)

/-- Decimal rendering of `n`, most significant digit first, as printed
by `printf "%llu"` (ASCII codes). -/
def decStr (n : Nat) : List Nat :=
  if n = 0 then [48] else ((decDigitsAux n n).map (· + 48)).reverse

/-- ASCII code of the lowercase hexadecimal digit `d`. -/
def hexChar (d : Nat) : Nat := if d < 10 then 48 + d else 87 + d

/-- Little-endian base-16 digit list of `n`, fuel-based. -/
def hexDigitsAux : Nat → Nat → List Nat
  | 0, _ => []
  | _ + 1, 0 => []
  | fuel + 1, n => n % 16 :: hexDigitsAux fuel (n / 16)

/-- Lowercase hexadecimal rendering of `n`, most significant digit
first, as printed by `printf "%llx"` (ASCII codes). -/
def hexStr (n : Nat) : List Nat :=
  if n = 0 then [48] else ((hexDigitsAux n n).map hexChar).reverse

/-- Left-pad a rendered number with ASCII zeros to 8 characters
(`%08llx`). -/
def pad8 (l : List Nat) : List Nat := List.replicate (8 - l.length) 48 ++ l

/-- Modelled from the spec: `MDS_INO_LOG_OFFSET` (the spec's `BASE_INO`
format constant) from `mds/mdstypes.h`, which is outside `src/`. -/
def MDS_INO_LOG_OFFSET : Nat := 0x20000000000

/-- `JournalScanner::obj_name`: the canonical object name
`"%llx.%08llx"` of `(MDS_INO_LOG_OFFSET + rank, offset)`, as a list of
ASCII codes. -/
def obj_name (rank offset : Nat) : List Nat :=
  hexStr (MDS_INO_LOG_OFFSET + rank) ++ [46] ++ pad8 (hexStr offset)

/-- Value of an ASCII hexadecimal digit (inverse of `hexChar`). -/
def hexVal (b : Nat) : Nat := if b < 58 then b - 48 else b - 87

/-- Read a (possibly zero-padded) hexadecimal rendering back as a
number. -/
def unhex (l : List Nat) : Nat := Nat.ofDigits 16 ((l.map hexVal).reverse)

/-- Modelled from the spec: `Journaler::sentinel` (`osdc/Journaler.h`,
outside `src/`), the fixed 64-bit frame sentinel constant. -/
def sentinel : Nat := 0x3141592653589793

/-- Modelled from the spec: the fixed ASCII magic string
`CEPH_FS_ONDISK_MAGIC` (outside `src/`). -/
def CEPH_FS_ONDISK_MAGIC : List Nat :=
  (['c', 'e', 'p', 'h', ' ', 'f', 's', ' ', 'v', 'o', 'l', 'u', 'm', 'e',
    ' ', 'v', '0', '1', '1'].map Char.toNat)

/-- Modelled from the spec: `g_default_file_layout.fl_object_size`, the
format-default object size (4 MiB) used when the configured
`mds_log_segment_size` is zero. -/
def fl_object_size_default : Nat := 4194304

/-- The value of `(uint64_t)(-1)`, used by the scanner for the initial
`gap_start` and for the open upper end of an invalid range. -/
def UINT64_MAX : Nat := 2 ^ 64 - 1

/-- The journal header (`Journaler::Header`): magic string, the three
stream offsets, and the layout fields the tool uses (`fl_object_size`,
`fl_pg_pool`). -/
structure Header where
  magic : List Nat
  trimmed_pos : Nat
  expire_pos : Nat
  write_pos : Nat
  object_size : Nat
  pg_pool : Nat
deriving DecidableEq, Repr

/-- The default-constructed `Journaler::Header` (all fields zero). -/
def Header.default : Header := ⟨[], 0, 0, 0, 0, 0⟩

/-- Read a `k`-byte little-endian integer from the front of a byte
string, failing on truncation. -/
def readLE (k : Nat) (bs : List Nat) : Option (Nat × List Nat) :=
  if bs.length < k then none else some (leVal k bs, bs.drop k)

/-- Read a length-prefixed byte string (the codec of `std::string`:
32-bit length, then the bytes), failing on truncation. -/
def readPrefixed (bs : List Nat) : Option (List Nat × List Nat) :=
  match readLE 4 bs with
  | none => none
  | some (n, rest) =>
    if rest.length < n then none else some (rest.take n, rest.drop n)

/-- Modelled from the spec: the on-disk header codec of
`Journaler::Header` (outside `src/`): a length-prefixed magic string,
the three 64-bit little-endian offsets, and the layout fields.  The C++
`decode` mutates the header field by field and throws on truncation, so
the result is the partially decoded header together with a success
flag. -/
def decodeHeader (bs : List Nat) : Header × Bool :=
  match readPrefixed bs with
  | none => (Header.default, false)
  | some (m, r1) =>
    let h1 := { Header.default with magic := m }
    match readLE 8 r1 with
    | none => (h1, false)
    | some (t, r2) =>
      let h2 := { h1 with trimmed_pos := t }
      match readLE 8 r2 with
      | none => (h2, false)
      | some (e, r3) =>
        let h3 := { h2 with expire_pos := e }
        match readLE 8 r3 with
        | none => (h3, false)
        | some (w, r4) =>
          let h4 := { h3 with write_pos := w }
          match readLE 8 r4 with
          | none => (h4, false)
          | some (os, r5) =>
            let h5 := { h4 with object_size := os }
            match readLE 8 r5 with
            | none => (h5, false)
            | some (pp, _) => ({ h5 with pg_pool := pp }, true)

/-- Modelled from the spec: the encoder matching `decodeHeader`. -/
def encodeHeader (h : Header) : List Nat :=
  leBytes 4 h.magic.length ++ h.magic ++ leBytes 8 h.trimmed_pos ++
    leBytes 8 h.expire_pos ++ leBytes 8 h.write_pos ++
    leBytes 8 h.object_size ++ leBytes 8 h.pg_pool

/-- Result of a RADOS object read.  `missing` models `-ENOENT`,
`ioerror` models any other negative return; the scanner's test
`if (r < 0)` cannot tell the two apart. -/
inductive ReadResult where
  | present (bytes : List Nat)
  | missing
  | ioerror (err : Nat)
deriving DecidableEq, Repr

/-- The object store: a map from object names to read results. -/
def PoolRead : Type := List Nat → ReadResult

/-- Whether a read result takes the scanner's `r < 0` branch. -/
def readFailed : ReadResult → Bool
  | .present _ => false
  | _ => true

/-- Replace every `ioerror` read result by `missing`: the two read
outcomes the scanner cannot distinguish. -/
def collapseRead (pool : PoolRead) : PoolRead := fun name =>
  match pool name with
  | .ioerror _ => .missing
  | r => r

/-- `std::map` insertion (`events[k] = v`): keep the association list
sorted by key, replacing the value on an existing key. -/
def mapInsert {α : Type} (k : Nat) (v : α) : List (Nat × α) → List (Nat × α)
  | [] => [(k, v)]
  | (k', v') :: t =>
    if k < k' then (k, v) :: (k', v') :: t
    else if k = k' then (k, v) :: t
    else (k', v') :: mapInsert k v t

/-- The mutable state of `JournalScanner::scan_events`: the rolling
buffer and cursor, the gap flags, and the report fields the loop
fills. -/
structure ScanSt (α : Type) where
  read_buf : List Nat
  read_offset : Nat
  gap : Bool
  gap_start : Nat
  objects_valid : List (List Nat)
  objects_missing : List Nat
  events : List (Nat × α)
  events_valid : List Nat
  ranges_invalid : List (Nat × Nat)
deriving DecidableEq, Repr

/-- The inner `while (true)` parse loop of `scan_events` (the event
framer in its `InFrame` state): peek sentinel and size, consume a full
frame when available, record the decoded event or flag a gap.  The
trailing `start_ptr` bytes are consumed but never compared with the
cursor (the source's TODO).  Fuel of `read_buf.length + 1` is always
sufficient, since each iteration consumes at least 20 bytes. -/
def parseLoop {α : Type} (dec : List Nat → Option α) : Nat → ScanSt α → ScanSt α
  | 0, st => st
  | fuel + 1, st =>
    if st.read_buf.length < 12 then st
    else
      let entry_sentinel := leVal 8 st.read_buf
      let entry_size := leVal 4 (st.read_buf.drop 8)
      if entry_sentinel ≠ sentinel then
        { st with gap := true, gap_start := st.read_offset }
      else if st.read_buf.length < 12 + entry_size + 8 then st
      else
        let le_bl := (st.read_buf.drop 12).take entry_size
        let read_buf' := st.read_buf.drop (12 + entry_size + 8)
        match dec le_bl with
        | some le =>
          parseLoop dec fuel
            { st with
                read_buf := read_buf',
                events := mapInsert st.read_offset le st.events,
                events_valid := st.events_valid ++ [st.read_offset],
                read_offset := st.read_offset + (12 + entry_size + 8) }
        | none =>
          parseLoop dec fuel
            { st with
                read_buf := read_buf',
                read_offset := st.read_offset + 1,
                gap := true,
                gap_start := st.read_offset + 1 }

/-- The object loop of `scan_events`: read each object in turn, append
its bytes to the rolling buffer, record it as valid or missing, and
parse.  A present object while `gap` is set reaches the source's
`assert(0)` (resynchronisation is unimplemented), modelled as `none`. -/
def scanObjects {α : Type} (pool : PoolRead) (dec : List Nat → Option α) (rank : Nat) :
    List Nat → ScanSt α → Option (ScanSt α)
  | [], st => some st
  | obj_offset :: rest, st =>
    match pool (obj_name rank obj_offset) with
    | .present this_object =>
      let st' := { st with
        read_buf := st.read_buf ++ this_object,
        objects_valid := st.objects_valid ++ [obj_name rank obj_offset] }
      if st'.gap then none
      else scanObjects pool dec rank rest (parseLoop dec (st'.read_buf.length + 1) st')
    | _ =>
      scanObjects pool dec rank rest
        { st with
            read_buf := st.read_buf ++ [],
            objects_missing := st.objects_missing ++ [obj_offset],
            gap := true,
            gap_start := st.read_offset }

/-- The effective object size of `scan_events`: the configured
`mds_log_segment_size`, or the default layout object size when the
configuration value is zero. -/
def effective_size (cfg : Nat) : Nat :=
  if cfg = 0 then fl_object_size_default else cfg

/-- The inclusive object-index range `[expire_pos / S, write_pos / S]`
iterated by `scan_events`. -/
def scan_range (S : Nat) (h : Header) : List Nat :=
  List.range' (h.expire_pos / S) (h.write_pos / S + 1 - h.expire_pos / S)

/-- The initial `scan_events` state: empty buffer, cursor at
`expire_pos`, no gap, `gap_start = (uint64_t)(-1)`. -/
def initSt (α : Type) (h : Header) : ScanSt α :=
  ⟨[], h.expire_pos, false, UINT64_MAX, [], [], [], [], []⟩

/-- The final step of `scan_events`: if the scan ended inside a gap,
record the invalid range `[gap_start, (uint64_t)(-1))`. -/
def finalizeRanges {α : Type} (st : ScanSt α) : ScanSt α :=
  { st with
      ranges_invalid :=
        st.ranges_invalid ++ if st.gap then [(st.gap_start, UINT64_MAX)] else [] }

/-- `JournalScanner::scan_events`: iterate the object range, then record
a final open invalid range if the scan ended inside a gap. -/
def scan_events {α : Type} (pool : PoolRead) (dec : List Nat → Option α)
    (rank cfg : Nat) (h : Header) : Option (ScanSt α) :=
  (scanObjects pool dec rank (scan_range (effective_size cfg) h) (initSt α h)).map
    finalizeRanges

/-- The outcome of `JournalScanner::scan_header`: the two flags plus the
`header` pointer (`none` models the null pointer left when the header
object is unreadable). -/
structure HeaderScan where
  header_present : Bool
  header_valid : Bool
  header : Option Header
deriving DecidableEq, Repr

/-- `JournalScanner::scan_header`: read object 0, decode, check magic
and offset monotonicity.  Every failure is reported through the flags
and still returns success ("successfully found an error"). -/
def scan_header (pool : PoolRead) (rank : Nat) : HeaderScan :=
  match pool (obj_name rank 0) with
  | .present header_bl =>
    match decodeHeader header_bl with
    | (h, false) => ⟨true, false, some h⟩
    | (h, true) =>
      if h.magic ≠ CEPH_FS_ONDISK_MAGIC then ⟨true, false, some h⟩
      else if ¬ (h.trimmed_pos ≤ h.expire_pos ∧ h.expire_pos ≤ h.write_pos) then
        ⟨true, false, some h⟩
      else ⟨true, true, some h⟩
  | _ => ⟨false, false, none⟩

/-- The scanner's report (`JournalScanner`'s fields after `scan`). -/
structure ScanResult (α : Type) where
  header_present : Bool
  header_valid : Bool
  header : Option Header
  objects_valid : List (List Nat)
  objects_missing : List Nat
  events : List (Nat × α)
  events_valid : List Nat
  ranges_invalid : List (Nat × Nat)
deriving DecidableEq, Repr

/-- `JournalScanner::scan`: run `scan_header`, then `scan_events` —
unconditionally, because `scan_header` returns 0 even when it found an
error.  When the header object was unreadable `header` is the null
pointer and `scan_events` dereferences it: `none`. -/
def scan {α : Type} (pool : PoolRead) (dec : List Nat → Option α)
    (rank cfg : Nat) : Option (ScanResult α) :=
  let hs := scan_header pool rank
  match hs.header with
  | none => none
  | some h =>
    (scan_events pool dec rank cfg h).map fun st =>
      { header_present := hs.header_present
        header_valid := hs.header_valid
        header := some h
        objects_valid := st.objects_valid
        objects_missing := st.objects_missing
        events := st.events
        events_valid := st.events_valid
        ranges_invalid := st.ranges_invalid }

/-- `JournalScanner::is_healthy`. -/
def is_healthy {α : Type} (r : ScanResult α) : Bool :=
  r.header_present && r.header_valid && r.ranges_invalid.isEmpty &&
    r.objects_missing.isEmpty

/-! ## The dumper / undumper (`Dumper.cc`)

`Dumper::dump` writes a 200-byte text preamble at file offset 0 and the
journal bytes at their original offsets; `Dumper::undump` parses the
preamble with `strstr`/`sscanf`, writes a synthetic header to
object-index 0, and streams the data region back in 1 MiB chunks. -/

/-- ASCII codes of `"Ceph mds"`. -/
def litCephMds : List Nat := ['C', 'e', 'p', 'h', ' ', 'm', 'd', 's'].map Char.toNat

/-- ASCII codes of `" journal dump\n "`. -/
def litJournalDump : List Nat :=
  [' ', 'j', 'o', 'u', 'r', 'n', 'a', 'l', ' ', 'd', 'u', 'm', 'p', '\n',
   ' '].map Char.toNat

/-- ASCII codes of `"start offset"`, the first `strstr` pattern. -/
def litStartOffset : List Nat :=
  ['s', 't', 'a', 'r', 't', ' ', 'o', 'f', 'f', 's', 'e', 't'].map Char.toNat

/-- ASCII codes of `" (0x"`. -/
def litHexOpen : List Nat := [' ', '(', '0', 'x'].map Char.toNat

/-- ASCII codes of `")\n       "` (seven spaces). -/
def litAfterStart : List Nat :=
  [')', '\n', ' ', ' ', ' ', ' ', ' ', ' ', ' '].map Char.toNat

/-- ASCII codes of `"length"`, the second `strstr` pattern. -/
def litLength : List Nat := ['l', 'e', 'n', 'g', 't', 'h'].map Char.toNat

/-- ASCII codes of `")\n"`. -/
def litHexClose : List Nat := [')', '\n'].map Char.toNat

/-- The preamble written by `Dumper::dump`:
`sprintf(buf, "Ceph mds%d journal dump\n start offset %llu (0x%llx)\n       length %llu (0x%llx)\n%c", rank, start, start, len, len, 4)`. -/
def preamble (rank start len : Nat) : List Nat :=
  litCephMds ++ decStr rank ++ litJournalDump ++ litStartOffset ++ [32] ++
    decStr start ++ litHexOpen ++ hexStr start ++ litAfterStart ++ litLength ++
    [32] ++ decStr len ++ litHexOpen ++ hexStr len ++ litHexClose ++ [4]

/-- The dump file as a byte function: `dump` first writes the zero-padded
200-byte preamble buffer at offset 0, then seeks to `start` and writes
the journal bytes there (overwriting the preamble where the two
overlap); the remaining offsets are filesystem holes reading as 0. -/
def dumpFile (rank start : Nat) (data : List Nat) : Nat → Nat :=
  fun o =>
    if start ≤ o ∧ o < start + data.length then data.getD (o - start) 0
    else if o < 200 then (preamble rank start data.length).getD o 0
    else 0

/-- Index of the first occurrence of `pat` (C `strstr`; `none` models
the NULL return). -/
def strstrloc (pat : List Nat) : List Nat → Option Nat
  | [] => if pat.isPrefixOf ([] : List Nat) then some 0 else none
  | b :: t =>
    if pat.isPrefixOf (b :: t) then some 0 else (strstrloc pat t).map (· + 1)

/-- C `isspace` on a byte. -/
def isWsByte (b : Nat) : Bool :=
  b = 32 || b = 9 || b = 10 || b = 11 || b = 12 || b = 13

/-- Decimal digit test on a byte. -/
def isDigitByte (b : Nat) : Bool := 48 ≤ b && b ≤ 57

/-- Whitespace skipping of `sscanf`'s `%llu`. -/
def skipWs (l : List Nat) : List Nat := l.dropWhile isWsByte

/-- Digit parsing of `sscanf`'s `%llu`: `none` when no digit matches
(in which case the C target variable stays uninitialized). -/
def parseDec (l : List Nat) : Option Nat :=
  let ds := l.takeWhile isDigitByte
  if ds.isEmpty then none
  else some (ds.foldl (fun a d => 10 * a + (d - 48)) 0)

/-- `sscanf(strstr(buf, pat), "<pat> %llu", &x)`: locate the first
occurrence of `pat`, skip it, then parse an unsigned decimal.  `none`
models the undefined behaviour of `sscanf` on a NULL pointer or an
uninitialized target. -/
def scanField (pat buf : List Nat) : Option Nat :=
  match strstrloc pat buf with
  | none => none
  | some i => parseDec (skipWs (buf.drop (i + pat.length)))

/-- A write issued to the object pool: `write_full` of a whole object,
or a `Filer::write` of bytes at a stream position (striped across
objects of size `S`). -/
inductive PoolWrite where
  | full (idx : Nat) (bytes : List Nat)
  | stream (pos : Nat) (bytes : List Nat)
deriving DecidableEq, Repr

/-- Write byte `b` at offset `off` of an object's content, zero-filling
any gap (RADOS extends short objects with zeros on a write past the
end). -/
def storeByte (c : List Nat) (off b : Nat) : List Nat :=
  (c ++ List.replicate (off + 1 - c.length) 0).set off b

/-- Apply the portion of a stream write `bytes @ pos` that lands in
object `idx` (object size `S`) to that object's content. -/
def applyStream (S idx : Nat) : List Nat → Nat → List Nat → List Nat
  | c, _, [] => c
  | c, pos, b :: bs =>
    applyStream S idx (if pos / S = idx then storeByte c (pos % S) b else c)
      (pos + 1) bs

/-- Apply one pool write to the content of object `idx`. -/
def applyWrite (S idx : Nat) (c : List Nat) : PoolWrite → List Nat
  | .full i bs => if i = idx then bs else c
  | .stream pos bs => applyStream S idx c pos bs

/-- Content of object `idx` after a sequence of writes to an empty
pool. -/
def contentOf (S : Nat) (ws : List PoolWrite) (idx : Nat) : List Nat :=
  ws.foldl (applyWrite S idx) []

/-- The pool's byte at stream offset `o` after a sequence of writes
(absent bytes read as 0). -/
def byteAt (S : Nat) (ws : List PoolWrite) (o : Nat) : Nat :=
  (contentOf S ws (o / S)).getD (o % S) 0

/-- The 1 MiB chunk loop of `Dumper::undump`: read the file at `pos`,
write it to the pool at stream offset `pos`, advance.  Fuel of `left`
is always sufficient since every chunk moves at least one byte. -/
def chunkWrites (file : Nat → Nat) : Nat → Nat → Nat → List PoolWrite
  | 0, _, _ => []
  | fuel + 1, pos, left =>
    if left = 0 then []
    else
      let l := min left (1024 * 1024)
      .stream pos ((List.range l).map fun j => file (pos + j)) ::
        chunkWrites file fuel (pos + l) (left - l)

/-- `Dumper::undump`: read the first 200 bytes, parse `start offset` and
`length` with `strstr`/`sscanf` (`none` models the crash on a missing
field), then emit the synthetic-header write followed by the data-chunk
writes.  The synthetic header has `trimmed_pos = expire_pos = start`,
`write_pos = start + len`, the default magic, and the default layout
with the metadata pool id substituted. -/
def undumpWrites (pool_id : Nat) (file : Nat → Nat) : Option (List PoolWrite) :=
  let buf := (List.range 200).map file
  match scanField litStartOffset buf with
  | none => none
  | some start =>
    match scanField litLength buf with
    | none => none
    | some len =>
      let h : Header :=
        { magic := CEPH_FS_ONDISK_MAGIC
          trimmed_pos := start
          expire_pos := start
          write_pos := start + len
          object_size := fl_object_size_default
          pg_pool := pool_id }
      some (.full 0 (encodeHeader h) :: chunkWrites file len start len)

/-- The round-trip property claimed for dump followed by undump: the
undump succeeds, the pool's journal byte range `[start, start + |data|)`
equals the original bytes, and the header object decodes to a header
with `expire_pos = start` and `write_pos = start + |data|`. -/
def undumpRoundTrip (rank start : Nat) (data : List Nat) (pool_id : Nat) : Prop :=
  ∃ ws, undumpWrites pool_id (dumpFile rank start data) = some ws ∧
    (∀ j < data.length,
      byteAt fl_object_size_default ws (start + j) = data.getD j 0) ∧
    (decodeHeader (contentOf fl_object_size_default ws 0)).2 = true ∧
    (decodeHeader (contentOf fl_object_size_default ws 0)).1.expire_pos = start ∧
    (decodeHeader (contentOf fl_object_size_default ws 0)).1.write_pos =
      start + data.length

/-! ## Concrete scan instances used as failing inputs and witnesses -/

/-- A decoder that rejects every payload. -/
def decNone : List Nat → Option Unit := fun _ => none

/-- A decoder that accepts every payload. -/
def decUnit : List Nat → Option Unit := fun _ => some ()

/-- A well-formed on-disk frame: sentinel, payload length, payload,
trailing `start_ptr`. -/
def mkFrame (payload : List Nat) (sp : Nat) : List Nat :=
  leBytes 8 sentinel ++ leBytes 4 payload.length ++ payload ++ leBytes 8 sp

/-- A decodable header whose magic is wrong. -/
def hdrC1 : Header :=
  { magic := [120], trimmed_pos := 0, expire_pos := 0, write_pos := 1,
    object_size := 0, pg_pool := 0 }

/-- A pool with no objects at all (in particular no header object). -/
def poolC1a : PoolRead := fun _ => .missing

/-- A pool whose header object is present but has a bad magic. -/
def poolC1b : PoolRead := fun name =>
  if name = obj_name 0 0 then .present (encodeHeader hdrC1) else .missing

/-- A valid header covering object indices 1..3 at object size 8. -/
def hdrC2 : Header :=
  { magic := CEPH_FS_ONDISK_MAGIC, trimmed_pos := 0, expire_pos := 8,
    write_pos := 24, object_size := 0, pg_pool := 0 }

/-- A pool where object 2 is missing between present objects 1 and 3. -/
def poolC2 : PoolRead := fun name =>
  if name = obj_name 0 0 then .present (encodeHeader hdrC2)
  else if name = obj_name 0 1 then .present []
  else if name = obj_name 0 3 then .present []
  else .missing

/-- A valid header covering exactly object index 1 at object size 64. -/
def hdrC3 : Header :=
  { magic := CEPH_FS_ONDISK_MAGIC, trimmed_pos := 0, expire_pos := 64,
    write_pos := 84, object_size := 0, pg_pool := 0 }

/-- A pool whose only data object holds one frame at stream offset 64
whose trailing `start_ptr` is 999. -/
def poolC3 : PoolRead := fun name =>
  if name = obj_name 0 0 then .present (encodeHeader hdrC3)
  else if name = obj_name 0 1 then .present (mkFrame [] 999)
  else .missing

/-- A valid header whose scan range is exactly object index 1. -/
def hdrC4 : Header :=
  { magic := CEPH_FS_ONDISK_MAGIC, trimmed_pos := 0, expire_pos := 8,
    write_pos := 8, object_size := 0, pg_pool := 0 }

/-- A pool where reading object 1 yields an I/O error (`-EIO`). -/
def poolC4 : PoolRead := fun name =>
  if name = obj_name 0 0 then .present (encodeHeader hdrC4)
  else if name = obj_name 0 1 then .ioerror 5
  else .missing

/-- A valid header with `expire_pos = 64`, `write_pos = 65`. -/
def hdrC5 : Header :=
  { magic := CEPH_FS_ONDISK_MAGIC, trimmed_pos := 0, expire_pos := 64,
    write_pos := 65, object_size := 0, pg_pool := 0 }

/-- A pool whose data object holds two well-formed frames, at stream
offsets 64 and 84 — the second one past `write_pos = 65`. -/
def poolC5 : PoolRead := fun name =>
  if name = obj_name 0 0 then .present (encodeHeader hdrC5)
  else if name = obj_name 0 1 then .present (mkFrame [] 64 ++ mkFrame [] 84)
  else .missing

/-- The report produced by scanning `poolC5`. -/
def resC5 : ScanResult Unit :=
  { header_present := true, header_valid := true, header := some hdrC5,
    objects_valid := [obj_name 0 1], objects_missing := [],
    events := [(64, ()), (84, ())], events_valid := [64, 84],
    ranges_invalid := [] }

/-- A valid empty-journal header (`expire_pos = write_pos = 0`). -/
def hdrC8 : Header :=
  { magic := CEPH_FS_ONDISK_MAGIC, trimmed_pos := 0, expire_pos := 0,
    write_pos := 0, object_size := 0, pg_pool := 0 }

/-- A pool holding only the (valid) header object. -/
def poolC8 : PoolRead := fun name =>
  if name = obj_name 0 0 then .present (encodeHeader hdrC8) else .missing

/-- The report produced by scanning `poolC8`: the header object itself
is scanned as data, its bytes are not a frame, so the whole range is one
gap. -/
def resC8 : ScanResult Unit :=
  { header_present := true, header_valid := true, header := some hdrC8,
    objects_valid := [obj_name 0 0], objects_missing := [],
    events := [], events_valid := [],
    ranges_invalid := [(0, UINT64_MAX)] }

/-- A pool whose object 0 holds three arbitrary bytes. -/
def poolC10 : PoolRead := fun name =>
  if name = obj_name 0 0 then .present [9, 9, 9] else .missing

/-- A header whose scan range spans objects 0..2 at object size 8. -/
def hdrC10 : Header :=
  { magic := [], trimmed_pos := 0, expire_pos := 0, write_pos := 20,
    object_size := 0, pg_pool := 0 }


/-! ## General lemmas about the scanner -/

/-- Inserting a key above every present key appends at the end. -/
theorem mapInsert_append {α : Type} (k : Nat) (v : α) :
    ∀ l : List (Nat × α), (∀ x ∈ l.map Prod.fst, x < k) →
      mapInsert k v l = l ++ [(k, v)] := by
  intro l
  induction l with
  | nil => intro _; rfl
  | cons p t ih =>
    intro hb
    obtain ⟨k', v'⟩ := p
    have hk : k' < k := hb k' (by simp)
    simp only [mapInsert, if_neg (by omega : ¬ k < k'), if_neg (by omega : ¬ k = k'),
      List.cons_append, List.cons.injEq, true_and]
    exact ih fun x hx => hb x (by simp [hx])

/-- The parse loop keeps the event keys strictly sorted, below the
cursor, and at or above any lower bound `base` of the cursor. -/
theorem parseLoop_inv {α : Type} (dec : List Nat → Option α) (base : Nat) :
    ∀ (fuel : Nat) (st : ScanSt α),
      List.Pairwise (· < ·) (st.events.map Prod.fst) →
      (∀ x ∈ st.events.map Prod.fst, x < st.read_offset) →
      (∀ x ∈ st.events.map Prod.fst, base ≤ x) →
      base ≤ st.read_offset →
      List.Pairwise (· < ·) ((parseLoop dec fuel st).events.map Prod.fst) ∧
      (∀ x ∈ (parseLoop dec fuel st).events.map Prod.fst,
        x < (parseLoop dec fuel st).read_offset) ∧
      (∀ x ∈ (parseLoop dec fuel st).events.map Prod.fst, base ≤ x) ∧
      base ≤ (parseLoop dec fuel st).read_offset := by
  intro fuel
  induction fuel with
  | zero => intro st h1 h2 h3 h4; exact ⟨h1, h2, h3, h4⟩
  | succ fuel ih =>
    intro st h1 h2 h3 h4
    simp only [parseLoop]
    split
    · exact ⟨h1, h2, h3, h4⟩
    · split
      · exact ⟨h1, h2, h3, h4⟩
      · split
        · exact ⟨h1, h2, h3, h4⟩
        · split
          · refine ih _ ?_ ?_ ?_ ?_
            · simp only [mapInsert_append _ _ _ h2, List.map_append]
              refine List.pairwise_append.2 ⟨h1, by simp, ?_⟩
              intro a ha b hb
              simp at hb
              subst hb
              exact h2 a ha
            · simp only [mapInsert_append _ _ _ h2, List.map_append]
              intro x hx
              rcases List.mem_append.1 hx with hx | hx
              · have := h2 x hx; omega
              · simp at hx; omega
            · simp only [mapInsert_append _ _ _ h2, List.map_append]
              intro x hx
              rcases List.mem_append.1 hx with hx | hx
              · exact h3 x hx
              · simp at hx; omega
            · simp only []
              omega
          · refine ih _ h1 ?_ ?_ ?_
            · intro x hx; have := h2 x hx; simp only []; omega
            · exact h3
            · simp only []; omega

/-- The parse loop never touches the object lists. -/
theorem parseLoop_objects {α : Type} (dec : List Nat → Option α) :
    ∀ (fuel : Nat) (st : ScanSt α),
      (parseLoop dec fuel st).objects_valid = st.objects_valid ∧
      (parseLoop dec fuel st).objects_missing = st.objects_missing := by
  intro fuel
  induction fuel with
  | zero => intro st; exact ⟨rfl, rfl⟩
  | succ fuel ih =>
    intro st
    simp only [parseLoop]
    split
    · exact ⟨rfl, rfl⟩
    · split
      · exact ⟨rfl, rfl⟩
      · split
        · exact ⟨rfl, rfl⟩
        · split
          · exact ih _
          · exact ih _

/-- After a completed object loop, the missing list is exactly the
failed reads of the range and the valid list exactly the names of the
successful ones, in range order. -/
theorem scanObjects_objects {α : Type} (pool : PoolRead) (dec : List Nat → Option α)
    (rank : Nat) :
    ∀ (idxs : List Nat) (st st' : ScanSt α),
      scanObjects pool dec rank idxs st = some st' →
      st'.objects_missing =
        st.objects_missing ++ idxs.filter (fun i => readFailed (pool (obj_name rank i))) ∧
      st'.objects_valid =
        st.objects_valid ++
          (idxs.filter (fun i => !readFailed (pool (obj_name rank i)))).map (obj_name rank) := by
  intro idxs
  induction idxs with
  | nil =>
    intro st st' hsc
    simp only [scanObjects, Option.some.injEq] at hsc
    subst hsc
    simp
  | cons i rest ih =>
    intro st st' hsc
    simp only [scanObjects] at hsc
    cases hp : pool (obj_name rank i) with
    | present bs =>
      rw [hp] at hsc
      by_cases hg : st.gap
      · simp [hg] at hsc
      · simp only [hg, Bool.false_eq_true, if_false] at hsc
        obtain ⟨hm, hv⟩ := ih _ _ hsc
        obtain ⟨pv, pm⟩ := parseLoop_objects dec _ _
        rw [pm] at hm
        rw [pv] at hv
        constructor
        · rw [hm]; simp [List.filter_cons, hp, readFailed]
        · rw [hv]; simp [List.filter_cons, hp, readFailed]
    | missing =>
      rw [hp] at hsc
      obtain ⟨hm, hv⟩ := ih _ _ hsc
      constructor
      · rw [hm]; simp [List.filter_cons, hp, readFailed]
      · rw [hv]; simp [List.filter_cons, hp, readFailed]
    | ioerror e =>
      rw [hp] at hsc
      obtain ⟨hm, hv⟩ := ih _ _ hsc
      constructor
      · rw [hm]; simp [List.filter_cons, hp, readFailed]
      · rw [hv]; simp [List.filter_cons, hp, readFailed]

/-- A completed object loop preserves the event-key invariant. -/
theorem scanObjects_inv {α : Type} (pool : PoolRead) (dec : List Nat → Option α)
    (rank base : Nat) :
    ∀ (idxs : List Nat) (st st' : ScanSt α),
      scanObjects pool dec rank idxs st = some st' →
      List.Pairwise (· < ·) (st.events.map Prod.fst) →
      (∀ x ∈ st.events.map Prod.fst, x < st.read_offset) →
      (∀ x ∈ st.events.map Prod.fst, base ≤ x) →
      base ≤ st.read_offset →
      List.Pairwise (· < ·) (st'.events.map Prod.fst) ∧
      (∀ x ∈ st'.events.map Prod.fst, base ≤ x) := by
  intro idxs
  induction idxs with
  | nil =>
    intro st st' hsc h1 h2 h3 h4
    simp only [scanObjects, Option.some.injEq] at hsc
    subst hsc
    exact ⟨h1, h3⟩
  | cons i rest ih =>
    intro st st' hsc h1 h2 h3 h4
    simp only [scanObjects] at hsc
    cases hp : pool (obj_name rank i) with
    | present bs =>
      rw [hp] at hsc
      by_cases hg : st.gap
      · simp [hg] at hsc
      · simp only [hg, Bool.false_eq_true, if_false] at hsc
        have hinv := parseLoop_inv dec base ((st.read_buf ++ bs).length + 1)
          { st with read_buf := st.read_buf ++ bs, gap := false,
                    objects_valid := st.objects_valid ++ [obj_name rank i] } h1 h2 h3 h4
        exact ih _ _ hsc hinv.1 hinv.2.1 hinv.2.2.1 hinv.2.2.2
    | missing =>
      rw [hp] at hsc
      exact ih _ _ hsc h1 h2 h3 h4
    | ioerror e =>
      rw [hp] at hsc
      exact ih _ _ hsc h1 h2 h3 h4

/-- The object loop cannot see the difference between `missing` and
`ioerror` reads. -/
theorem scanObjects_collapse {α : Type} (pool : PoolRead) (dec : List Nat → Option α)
    (rank : Nat) :
    ∀ (idxs : List Nat) (st : ScanSt α),
      scanObjects (collapseRead pool) dec rank idxs st =
        scanObjects pool dec rank idxs st := by
  intro idxs
  induction idxs with
  | nil => intro st; rfl
  | cons i rest ih =>
    intro st
    simp only [scanObjects, collapseRead]
    cases hp : pool (obj_name rank i) with
    | present bs =>
      simp only [hp]
      split
      · rfl
      · exact ih _
    | missing => simp only [hp]; exact ih _
    | ioerror e => simp only [hp]; exact ih _

/-- The header scan cannot see the difference between `missing` and
`ioerror` reads. -/
theorem scan_header_collapse (pool : PoolRead) (rank : Nat) :
    scan_header (collapseRead pool) rank = scan_header pool rank := by
  unfold scan_header collapseRead
  cases hp : pool (obj_name rank 0) <;> simp

/-- `scan_events` cannot see the difference between `missing` and
`ioerror` reads. -/
theorem scan_events_collapse {α : Type} (pool : PoolRead) (dec : List Nat → Option α)
    (rank cfg : Nat) (h : Header) :
    scan_events (collapseRead pool) dec rank cfg h =
      scan_events pool dec rank cfg h := by
  simp only [scan_events, scanObjects_collapse]

/-- A fuelled digit expansion with enough fuel is `Nat.digits 16`. -/
theorem hexDigitsAux_eq : ∀ fuel n, n ≤ fuel → hexDigitsAux fuel n = Nat.digits 16 n := by
  intro fuel
  induction fuel with
  | zero =>
    intro n hn
    interval_cases n
    simp [hexDigitsAux]
  | succ fuel ih =>
    intro n hn
    match n with
    | 0 => simp [hexDigitsAux]
    | m + 1 =>
      rw [show hexDigitsAux (fuel + 1) (m + 1) =
            (m + 1) % 16 :: hexDigitsAux fuel ((m + 1) / 16) from rfl,
        Nat.digits_def' (by norm_num : (1 : Nat) < 16) (Nat.succ_pos m), ih]
      have := Nat.div_lt_self (Nat.succ_pos m) (by norm_num : 1 < 16)
      omega

/-- `hexVal` inverts `hexChar` on digit values. -/
theorem hexVal_hexChar (d : Nat) (hd : d < 16) : hexVal (hexChar d) = d := by
  unfold hexVal hexChar
  split
  · split
    · omega
    · omega
  · split
    · omega
    · omega

/-- A run of zero digits denotes zero. -/
theorem ofDigits_replicate_zero (b : Nat) :
    ∀ k, Nat.ofDigits b (List.replicate k 0) = 0 := by
  intro k
  induction k with
  | zero => simp [Nat.ofDigits]
  | succ k ih => simp [List.replicate_succ, Nat.ofDigits, ih]

/-- Reading back the zero-padded hexadecimal rendering recovers the
number: `%08llx` is injective. -/
theorem unhex_pad8_hexStr (n : Nat) : unhex (pad8 (hexStr n)) = n := by
  unfold unhex pad8
  by_cases hn : n = 0
  · subst hn
    decide
  · rw [hexStr, if_neg hn, hexDigitsAux_eq n n le_rfl]
    rw [List.map_append, List.map_reverse, List.map_map, List.reverse_append,
      List.reverse_reverse]
    have hchar : (Nat.digits 16 n).map (hexVal ∘ hexChar) = Nat.digits 16 n := by
      rw [show Nat.digits 16 n = (Nat.digits 16 n).map id by simp]
      rw [List.map_map]
      exact List.map_congr_left fun d hd => by
        simp only [Function.comp_apply, id_eq]
        exact hexVal_hexChar d (Nat.digits_lt_base (by norm_num) (by simpa using hd))
    rw [hchar, List.map_replicate, show hexVal 48 = 0 from rfl,
      List.reverse_replicate, Nat.ofDigits_append, Nat.ofDigits_digits,
      ofDigits_replicate_zero]
    ring

/-- Object names are injective in the object index (for a fixed rank). -/
theorem obj_name_inj (rank : Nat) {i j : Nat} (hij : obj_name rank i = obj_name rank j) :
    i = j := by
  unfold obj_name at hij
  have h2 : pad8 (hexStr i) = pad8 (hexStr j) := List.append_cancel_left hij
  have h3 := congrArg unhex h2
  rwa [unhex_pad8_hexStr, unhex_pad8_hexStr] at h3

/-! ## The claims -/

/-- C9: `is_healthy()` returns true if and only if `header_present` and
`header_valid` are both true, `ranges_invalid` is empty and
`objects_missing` is empty, for every report state. -/
theorem C9_is_healthy_iff {α : Type} (r : ScanResult α) :
    is_healthy r = true ↔
      (r.header_present = true ∧ r.header_valid = true ∧
       r.ranges_invalid = [] ∧ r.objects_missing = []) := by
  simp [is_healthy, List.isEmpty_iff, and_assoc]

/-- C1 (code bug): a failed header read or an invalid header does not
produce an Ok return with an empty report.  With the header object
missing, `scan_header` leaves the null `header` pointer, returns 0, and
`scan()` then calls `scan_events`, which dereferences the null pointer
(modelled `none`).  With a present header whose magic is wrong, `scan`
proceeds to scan the object range anyway, recording present objects and
invalid ranges in the report. -/
theorem C1_header_failure_scan_proceeds :
    scan poolC1a decNone 0 8 = none ∧
    (scan poolC1b decNone 0 8).map
        (fun r => (r.header_present, r.header_valid, r.objects_valid.length,
                   r.ranges_invalid.length)) = some (true, false, 1, 1) :=
  ⟨by decide, by decide⟩

/-- C2 (code bug): a missing object inside the range does not lead to a
resynchronisation.  In `poolC2` object 2 is missing between present
objects 1 and 3; on reading object 3 with the gap flag set the source
hits `assert(0)` (modelled `none`) instead of advancing the cursor past
the hole, discarding straddling buffered bytes and searching for the
next sentinel. -/
theorem C2_missing_object_resync_asserts :
    scan poolC2 decNone 0 8 = none := by decide

/-- C3 (code bug): the trailing `start_ptr` of a frame is consumed but
never compared with the frame's stream offset (the source's TODO), so an
event is recorded at offset 64 although its frame's trailing `start_ptr`
is 999 ≠ 64. -/
theorem C3_start_ptr_not_validated :
    (scan poolC3 decUnit 0 64).map (fun r => (r.header_valid, r.events_valid)) =
        some (true, [64]) ∧
    leVal 8 ((mkFrame [] 999).drop 12) = 999 ∧ (999 : Nat) ≠ 64 :=
  ⟨by decide, by decide, by decide⟩

/-- C4 (counterexample): an `ioerror` read outcome does not abort the
scan and is not propagated: with object 1 of `poolC4` returning `-EIO`,
`scan` still returns a report (Ok) and records object 1 in
`objects_missing`. -/
theorem C4_ioerror_not_fatal_cex :
    (scan poolC4 decNone 0 8).map (fun r => r.objects_missing) = some [1] := by
  decide

/-- C4 (amended): the scanner treats `missing` and `ioerror` read
outcomes identically — replacing every `ioerror` by `missing` in the
pool leaves the whole scan result unchanged, so a failed read is always
recorded as missing and never aborts the scan. -/
theorem C4_failed_reads_indistinguishable {α : Type} (pool : PoolRead)
    (dec : List Nat → Option α) (rank cfg : Nat) :
    scan (collapseRead pool) dec rank cfg = scan pool dec rank cfg := by
  unfold scan
  rw [scan_header_collapse]
  simp only [scan_events_collapse]

/-- C5 (counterexample): with a valid header (`write_pos = 65`) the scan
of `poolC5` records events at offsets 64 and 84, and 84 is not below
`write_pos`: the claimed upper bound `k < write_pos` fails. -/
theorem C5_event_beyond_write_pos_cex :
    (scan poolC5 decUnit 0 64).map
        (fun r => (r.header_valid, r.events.map Prod.fst,
                   r.header.map Header.write_pos)) = some (true, [64, 84], some 65) ∧
    ¬ (84 < 65) :=
  ⟨by decide, by decide⟩

/-- C5 (amended): for every scan that returns a report, the keys of the
events map are strictly ascending and every key is at least
`header.expire_pos` (the upper bound `k < write_pos` does not hold in
general). -/
theorem C5_events_keys_ascending {α : Type} (pool : PoolRead)
    (dec : List Nat → Option α) (rank cfg : Nat) (r : ScanResult α) (h : Header)
    (hsc : scan pool dec rank cfg = some r) (hh : r.header = some h) :
    List.Pairwise (· < ·) (r.events.map Prod.fst) ∧
    ∀ k ∈ r.events.map Prod.fst, h.expire_pos ≤ k := by
  simp only [scan] at hsc
  cases hh0 : (scan_header pool rank).header with
  | none => rw [hh0] at hsc; exact absurd hsc (by simp)
  | some h0 =>
    rw [hh0] at hsc
    rw [Option.map_eq_some'] at hsc
    obtain ⟨st, hst, hr⟩ := hsc
    simp only [scan_events, Option.map_eq_some'] at hst
    obtain ⟨st0, hst0, hfin⟩ := hst
    have hobj := scanObjects_inv pool dec rank h0.expire_pos _ _ _ hst0
      (by simp [initSt]) (by simp [initSt]) (by simp [initSt]) (by simp [initSt])
    have hre : r.events = st0.events := by
      rw [← hr, ← hfin]; rfl
    have hrh : r.header = some h0 := by rw [← hr]
    rw [hrh] at hh
    obtain rfl : h0 = h := by injection hh
    rw [hre]
    exact hobj

set_option maxRecDepth 100000 in
/-- Witness for C5 (amended) at the concrete scan of `poolC5`. -/
theorem C5_events_keys_ascending_witness :
    scan poolC5 decUnit 0 64 = some resC5 ∧ resC5.header = some hdrC5 ∧
    (List.Pairwise (· < ·) (resC5.events.map Prod.fst) ∧
     ∀ k ∈ resC5.events.map Prod.fst, hdrC5.expire_pos ≤ k) :=
  ⟨by decide, rfl,
   C5_events_keys_ascending poolC5 decUnit 0 64 resC5 hdrC5 (by decide) rfl⟩

set_option maxRecDepth 100000 in
/-- C7 (code bug): on a dump file whose first 200 bytes contain neither
a `start offset` nor a `length` field, `undump` performs no pool write —
but only because `strstr` returns NULL and `sscanf(NULL, ...)` is
undefined behaviour (a crash), not because the preamble is validated. -/
theorem C7_missing_preamble_fields_no_writes :
    undumpWrites 0 (fun _ => 0) = none := by
  decide

/-- C8: for every scan that returns a report, the indices recorded as
missing and the indices whose names are recorded as valid are disjoint,
and together they are exactly the inclusive index range
`[expire_pos / S, write_pos / S]` the scan iterated over. -/
theorem C8_objects_partition {α : Type} (pool : PoolRead) (dec : List Nat → Option α)
    (rank cfg : Nat) (r : ScanResult α) (h : Header)
    (hsc : scan pool dec rank cfg = some r) (hh : r.header = some h) :
    (∀ i, ¬ (i ∈ r.objects_missing ∧ obj_name rank i ∈ r.objects_valid)) ∧
    (∀ i, (h.expire_pos / effective_size cfg ≤ i ∧
           i ≤ h.write_pos / effective_size cfg) ↔
      (i ∈ r.objects_missing ∨ obj_name rank i ∈ r.objects_valid)) := by
  simp only [scan] at hsc
  cases hh0 : (scan_header pool rank).header with
  | none => rw [hh0] at hsc; exact absurd hsc (by simp)
  | some h0 =>
    rw [hh0] at hsc
    rw [Option.map_eq_some'] at hsc
    obtain ⟨st, hst, hr⟩ := hsc
    simp only [scan_events, Option.map_eq_some'] at hst
    obtain ⟨st0, hst0, hfin⟩ := hst
    obtain ⟨hm, hv⟩ := scanObjects_objects pool dec rank _ _ _ hst0
    have hrm : r.objects_missing = st0.objects_missing := by rw [← hr, ← hfin]; rfl
    have hrv : r.objects_valid = st0.objects_valid := by rw [← hr, ← hfin]; rfl
    have hrh : r.header = some h0 := by rw [← hr]
    rw [hrh] at hh
    have hhh : h0 = h := Option.some.inj hh
    rw [← hhh]
    simp only [initSt, List.nil_append] at hm hv
    rw [hrm, hm, hrv, hv]
    constructor
    · rintro i ⟨hmi, hvi⟩
      rw [List.mem_filter] at hmi
      rw [List.mem_map] at hvi
      obtain ⟨j, hj, hji⟩ := hvi
      obtain rfl : j = i := obj_name_inj rank hji
      rw [List.mem_filter] at hj
      rcases hj with ⟨-, hgood⟩
      rcases hmi with ⟨-, hbad⟩
      simp at hgood
      rw [hgood] at hbad
      exact Bool.noConfusion hbad
    · intro i
      constructor
      · rintro ⟨hlo, hhi⟩
        have hmem : i ∈ scan_range (effective_size cfg) h0 := by
          rw [scan_range, List.mem_range'_1]
          omega
        by_cases hbad : readFailed (pool (obj_name rank i))
        · exact Or.inl (List.mem_filter.2 ⟨hmem, by simp [hbad]⟩)
        · refine Or.inr (List.mem_map.2 ⟨i, List.mem_filter.2 ⟨hmem, by simp [hbad]⟩, rfl⟩)
      · intro hcase
        have hmem : i ∈ scan_range (effective_size cfg) h0 := by
          rcases hcase with hmi | hvi
          · exact (List.mem_filter.1 hmi).1
          · obtain ⟨j, hj, hji⟩ := List.mem_map.1 hvi
            obtain rfl : j = i := obj_name_inj rank hji
            exact (List.mem_filter.1 hj).1
        rw [scan_range, List.mem_range'_1] at hmem
        omega

/-- Witness for C8 at the concrete scan of `poolC8`. -/
theorem C8_objects_partition_witness :
    scan poolC8 decUnit 0 8 = some resC8 ∧ resC8.header = some hdrC8 ∧
    ((∀ i, ¬ (i ∈ resC8.objects_missing ∧ obj_name 0 i ∈ resC8.objects_valid)) ∧
     (∀ i, (hdrC8.expire_pos / effective_size 8 ≤ i ∧
            i ≤ hdrC8.write_pos / effective_size 8) ↔
       (i ∈ resC8.objects_missing ∨ obj_name 0 i ∈ resC8.objects_valid))) :=
  ⟨by decide, rfl,
   C8_objects_partition poolC8 decUnit 0 8 resC8 hdrC8 (by decide) rfl⟩

/-- C10: the header object shares its name `obj_name rank 0` with data
object 0: for every scan whose range starts at object index 0
(`expire_pos` below the object size), the header read succeeds exactly
when the range's first read does, the range the scan iterates begins
with index 0, and `scan_events` first appends that same object's bytes
to the framer's buffer and parses them as event-stream data before
scanning the remaining indices. -/
theorem C10_header_bytes_scanned {α : Type} (pool : PoolRead) (dec : List Nat → Option α)
    (rank cfg : Nat) (h : Header) (bs : List Nat)
    (he : h.expire_pos < effective_size cfg)
    (hp : pool (obj_name rank 0) = .present bs) :
    (scan_header pool rank).header_present = true ∧
    scan_range (effective_size cfg) h =
      0 :: List.range' 1 (h.write_pos / effective_size cfg) ∧
    scan_events pool dec rank cfg h =
      (scanObjects pool dec rank
        (List.range' 1 (h.write_pos / effective_size cfg))
        (parseLoop dec (bs.length + 1)
          { initSt α h with read_buf := bs,
                            objects_valid := [obj_name rank 0] })).map
        finalizeRanges := by
  have hrange : scan_range (effective_size cfg) h =
      0 :: List.range' 1 (h.write_pos / effective_size cfg) := by
    rw [scan_range, Nat.div_eq_of_lt he, Nat.sub_zero, List.range'_succ]
  refine ⟨?_, hrange, ?_⟩
  · rcases hdec : decodeHeader bs with ⟨hd, b⟩
    cases b
    · simp [scan_header, hp, hdec]
    · simp only [scan_header, hp, hdec]
      split_ifs <;> rfl
  · rw [scan_events, hrange]
    simp only [scanObjects, hp, initSt, List.nil_append, Bool.false_eq_true, if_false]

/-- Witness for C10 at `poolC10` with a header whose range spans the
three objects 0..2. -/
theorem C10_header_bytes_scanned_witness :
    (hdrC10.expire_pos < effective_size 8 ∧
     poolC10 (obj_name 0 0) = .present [9, 9, 9]) ∧
    ((scan_header poolC10 0).header_present = true ∧
     scan_range (effective_size 8) hdrC10 =
       0 :: List.range' 1 (hdrC10.write_pos / effective_size 8) ∧
     scan_events poolC10 decUnit 0 8 hdrC10 =
       (scanObjects poolC10 decUnit 0
         (List.range' 1 (hdrC10.write_pos / effective_size 8))
         (parseLoop decUnit (([9, 9, 9] : List Nat).length + 1)
           { initSt Unit hdrC10 with
               read_buf := [9, 9, 9],
               objects_valid := [obj_name 0 0] })).map
         finalizeRanges) :=
  ⟨⟨by decide, by decide⟩,
   C10_header_bytes_scanned poolC10 decUnit 0 8 hdrC10 [9, 9, 9]
     (by decide) (by decide)⟩

/-! ## Lemmas for the dump/undump round trip -/


theorem decDigitsAux_eq : ∀ fuel n, n ≤ fuel → decDigitsAux fuel n = Nat.digits 10 n := by
  intro fuel
  induction fuel with
  | zero =>
    intro n hn
    interval_cases n
    simp [decDigitsAux]
  | succ fuel ih =>
    intro n hn
    match n with
    | 0 => simp [decDigitsAux]
    | m + 1 =>
      rw [show decDigitsAux (fuel + 1) (m + 1) =
            (m + 1) % 10 :: decDigitsAux fuel ((m + 1) / 10) from rfl,
        Nat.digits_def' (by norm_num : (1 : Nat) < 10) (Nat.succ_pos m), ih]
      have := Nat.div_lt_self (Nat.succ_pos m) (by norm_num : 1 < 10)
      omega

theorem decStr_mem {n b : Nat} (hb : b ∈ decStr n) : 48 ≤ b ∧ b ≤ 57 := by
  unfold decStr at hb
  split at hb
  · simp at hb; omega
  · rename_i hn
    rw [decDigitsAux_eq n n le_rfl] at hb
    rw [List.mem_reverse, List.mem_map] at hb
    obtain ⟨d, hd, rfl⟩ := hb
    have := Nat.digits_lt_base (by norm_num) hd
    omega

theorem hexStr_mem {n b : Nat} (hb : b ∈ hexStr n) : 48 ≤ b ∧ b ≤ 102 := by
  unfold hexStr at hb
  split at hb
  · simp at hb; omega
  · rename_i hn
    rw [hexDigitsAux_eq n n le_rfl] at hb
    rw [List.mem_reverse, List.mem_map] at hb
    obtain ⟨d, hd, rfl⟩ := hb
    have := Nat.digits_lt_base (by norm_num) hd
    unfold hexChar
    split <;> omega

theorem decStr_ne_nil (n : Nat) : decStr n ≠ [] := by
  unfold decStr
  split
  · simp
  · rename_i hn
    rw [decDigitsAux_eq n n le_rfl]
    simp [Nat.digits_ne_nil_iff_ne_zero, hn]

theorem decStr_length_le {n : Nat} (hn : n < 2 ^ 64) : (decStr n).length ≤ 20 := by
  unfold decStr
  split
  · simp
  · rename_i h0
    rw [decDigitsAux_eq n n le_rfl]
    simp only [List.length_reverse, List.length_map]
    by_contra hlen
    push_neg at hlen
    have h1 : (10 : Nat) ^ (Nat.digits 10 n).length ≤ 10 * n :=
      Nat.base_pow_length_digits_le 10 n (by norm_num) h0
    have h2 : (10 : Nat) ^ 21 ≤ 10 ^ (Nat.digits 10 n).length :=
      Nat.pow_le_pow_right (by norm_num) hlen
    have h3 : (10 : Nat) * n < 10 * 10 ^ 20 := by
      have : (2 : Nat) ^ 64 ≤ 10 ^ 20 := by norm_num
      omega
    have h4 : (10 : Nat) * 10 ^ 20 = 10 ^ 21 := by ring
    omega

theorem hexStr_length_le {n : Nat} (hn : n < 2 ^ 64) : (hexStr n).length ≤ 16 := by
  unfold hexStr
  split
  · simp
  · rename_i h0
    rw [hexDigitsAux_eq n n le_rfl]
    simp only [List.length_reverse, List.length_map]
    by_contra hlen
    push_neg at hlen
    have h1 : (16 : Nat) ^ (Nat.digits 16 n).length ≤ 16 * n :=
      Nat.base_pow_length_digits_le 16 n (by norm_num) h0
    have h2 : (16 : Nat) ^ 17 ≤ 16 ^ (Nat.digits 16 n).length :=
      Nat.pow_le_pow_right (by norm_num) hlen
    have h3 : (16 : Nat) * n < 16 * 16 ^ 16 := by
      have : (2 : Nat) ^ 64 = 16 ^ 16 := by norm_num
      omega
    have h4 : (16 : Nat) * 16 ^ 16 = 16 ^ 17 := by ring
    omega

theorem foldl_digits_acc :
    ∀ (L : List Nat) (acc : Nat),
      L.foldl (fun a d => 10 * a + d) acc =
        acc * 10 ^ L.length + Nat.ofDigits 10 L.reverse := by
  intro L
  induction L with
  | nil => intro acc; simp [Nat.ofDigits]
  | cons d L ih =>
    intro acc
    simp only [List.foldl_cons, ih, List.reverse_cons, Nat.ofDigits_append,
      List.length_cons, List.length_reverse]
    simp [Nat.ofDigits]
    ring

theorem takeWhile_eq_self_of {p : Nat → Bool} :
    ∀ {l : List Nat}, (∀ b ∈ l, p b = true) → l.takeWhile p = l := by
  intro l
  induction l with
  | nil => intro _; rfl
  | cons b t ih =>
    intro hall
    rw [List.takeWhile_cons, if_pos (hall b (by simp))]
    rw [ih fun x hx => hall x (by simp [hx])]

theorem parseDec_decStr (n : Nat) (tail : List Nat)
    (htail : ∀ b ∈ tail.head?, isDigitByte b = false) :
    parseDec (decStr n ++ tail) = some n := by
  have hds : (decStr n ++ tail).takeWhile isDigitByte = decStr n := by
    rw [List.takeWhile_append]
    rw [takeWhile_eq_self_of (fun b hb => by
      have := decStr_mem hb
      simp [isDigitByte]
      omega)]
    rw [if_pos rfl]
    cases tail with
    | nil => simp
    | cons b t =>
      have hb := htail b (by simp)
      rw [List.takeWhile_cons, if_neg (by simp [hb])]
      simp
  unfold parseDec
  rw [hds, if_neg (by simp [decStr_ne_nil n])]
  congr 1
  unfold decStr
  split
  · rename_i h0
    subst h0
    decide
  · rename_i h0
    rw [decDigitsAux_eq n n le_rfl, ← List.map_reverse, List.foldl_map]
    have hfn : (fun (a : Nat) (b : Nat) => 10 * a + (b + 48 - 48)) =
        fun (a : Nat) (b : Nat) => 10 * a + b := by
      funext a b
      omega
    rw [hfn, foldl_digits_acc, List.reverse_reverse, Nat.ofDigits_digits]
    ring

theorem isPrefixOf_getD {pat l : List Nat} (h : pat.isPrefixOf l = true)
    {k : Nat} (hk : k < pat.length) : l.getD k 0 = pat.getD k 0 := by
  rw [List.isPrefixOf_iff_prefix] at h
  obtain ⟨t, rfl⟩ := h
  rw [List.getD_eq_getElem?_getD, List.getD_eq_getElem?_getD,
    List.getElem?_append_left hk]

theorem getD_drop_add (l : List Nat) (i k : Nat) :
    (l.drop i).getD k 0 = l.getD (i + k) 0 := by
  rw [List.getD_eq_getElem?_getD, List.getD_eq_getElem?_getD, List.getElem?_drop]

theorem getD_append_left {l1 l2 : List Nat} {m : Nat} (hm : m < l1.length) :
    (l1 ++ l2).getD m 0 = l1.getD m 0 := by
  rw [List.getD_eq_getElem?_getD, List.getD_eq_getElem?_getD,
    List.getElem?_append_left hm]

theorem getD_append_right {l1 l2 : List Nat} {m : Nat} (hm : l1.length ≤ m) :
    (l1 ++ l2).getD m 0 = l2.getD (m - l1.length) 0 := by
  rw [List.getD_eq_getElem?_getD, List.getD_eq_getElem?_getD,
    List.getElem?_append_right hm]

theorem getD_mem {l : List Nat} {m : Nat} (hm : m < l.length) : l.getD m 0 ∈ l := by
  rw [List.getD_eq_getElem?_getD, List.getElem?_eq_getElem hm]
  exact List.getElem_mem hm

theorem strstrloc_eq (pat : List Nat) :
    ∀ (pre rest : List Nat), pat.isPrefixOf rest = true →
      (∀ i < pre.length, pat.isPrefixOf ((pre ++ rest).drop i) = false) →
      strstrloc pat (pre ++ rest) = some pre.length := by
  intro pre
  induction pre with
  | nil =>
    intro rest h1 _
    cases rest with
    | nil => simp only [List.nil_append, strstrloc, h1, if_true, List.length_nil]
    | cons b t => simp only [List.nil_append, strstrloc, h1, if_true, List.length_nil]
  | cons a pre ih =>
    intro rest h1 hno
    have h0 := hno 0 (by simp)
    simp only [List.drop_zero] at h0
    rw [List.cons_append] at h0
    show strstrloc pat (a :: (pre ++ rest)) = some (pre.length + 1)
    rw [strstrloc, if_neg (by rw [h0]; simp)]
    rw [ih rest h1 fun i hi => by
      have := hno (i + 1) (by simpa using Nat.succ_lt_succ hi)
      simpa using this]
    rfl

theorem no_occ_before (pat pre rest : List Nat) (kf : Nat) (hkf : kf < pat.length)
    (hcf : ∀ b ∈ pre, b ≠ pat.getD kf 0)
    (hc0 : ∀ j, pre.length - kf ≤ j → j < pre.length → pre.getD j 0 ≠ pat.getD 0 0) :
    ∀ i < pre.length, pat.isPrefixOf ((pre ++ rest).drop i) = false := by
  intro i hi
  by_contra hcontra
  rw [Bool.not_eq_false] at hcontra
  by_cases hcase : i + kf < pre.length
  · have h1 := isPrefixOf_getD hcontra hkf
    rw [getD_drop_add, getD_append_left hcase] at h1
    exact absurd h1 (hcf _ (getD_mem hcase))
  · have h1 := isPrefixOf_getD hcontra (show 0 < pat.length by omega)
    rw [getD_drop_add, Nat.add_zero, getD_append_left hi] at h1
    exact absurd h1 (hc0 i (by omega) hi)

theorem no_occ_tail (front lit : List Nat) (c0 kf : Nat)
    (hlen : kf ≤ lit.length)
    (hlit : ∀ j, lit.length - kf ≤ j → j < lit.length → lit.getD j 0 ≠ c0) :
    ∀ j, (front ++ lit).length - kf ≤ j → j < (front ++ lit).length →
      (front ++ lit).getD j 0 ≠ c0 := by
  intro j hj1 hj2
  rw [List.length_append] at hj1 hj2
  rw [getD_append_right (by omega)]
  exact hlit (j - front.length) (by omega) (by omega)

theorem skipWs_space_digits (n : Nat) (tail : List Nat) :
    skipWs (32 :: (decStr n ++ tail)) = decStr n ++ tail := by
  unfold skipWs
  rw [List.dropWhile_cons, if_pos (by decide)]
  cases hds : decStr n with
  | nil => exact absurd hds (decStr_ne_nil n)
  | cons d t =>
    have hd : 48 ≤ d ∧ d ≤ 57 := decStr_mem (by rw [hds]; simp)
    rw [List.cons_append, List.dropWhile_cons,
      if_neg (by simp [isWsByte]; omega)]

theorem scanField_at (pat pre : List Nat) (n : Nat) (tail : List Nat)
    (hno : ∀ i < pre.length,
      pat.isPrefixOf ((pre ++ (pat ++ 32 :: (decStr n ++ tail))).drop i) = false)
    (htail : ∀ b ∈ tail.head?, isDigitByte b = false) :
    scanField pat (pre ++ (pat ++ 32 :: (decStr n ++ tail))) = some n := by
  unfold scanField
  rw [strstrloc_eq pat pre _
    (List.isPrefixOf_iff_prefix.2 (List.prefix_append _ _)) hno]
  rw [show pre ++ (pat ++ 32 :: (decStr n ++ tail)) =
        (pre ++ pat) ++ (32 :: (decStr n ++ tail)) by rw [List.append_assoc]]
  show parseDec (skipWs
    (((pre ++ pat) ++ (32 :: (decStr n ++ tail))).drop (pre.length + pat.length))) = some n
  rw [show pre.length + pat.length = (pre ++ pat).length by rw [List.length_append]]
  rw [List.drop_left]
  rw [skipWs_space_digits]
  exact parseDec_decStr n tail htail

theorem range_map_getD (l : List Nat) (n : Nat) (hl : l.length ≤ n) :
    (List.range n).map (fun o => l.getD o 0) =
      l ++ List.replicate (n - l.length) 0 := by
  apply List.ext_getElem
  · simp
    omega
  · intro i h1 h2
    simp only [List.getElem_map, List.getElem_range]
    by_cases hi : i < l.length
    · rw [List.getElem_append_left hi, List.getD_eq_getElem?_getD,
        List.getElem?_eq_getElem hi]
      rfl
    · rw [List.getElem_append_right (by omega)]
      simp only [List.getElem_replicate]
      rw [List.getD_eq_getElem?_getD, List.getElem?_eq_none (by omega)]
      rfl

theorem preamble_length_le (rank s len : Nat) (h1 : rank < 2 ^ 64)
    (h2 : s < 2 ^ 64) (h3 : len < 2 ^ 64) :
    (preamble rank s len).length ≤ 200 := by
  have e1 := decStr_length_le h1
  have e2 := decStr_length_le h2
  have e3 := decStr_length_le h3
  have e4 := hexStr_length_le h2
  have e5 := hexStr_length_le h3
  simp only [preamble, List.length_append, List.length_singleton]
  have l1 : litCephMds.length = 8 := by decide
  have l2 : litJournalDump.length = 15 := by decide
  have l3 : litStartOffset.length = 12 := by decide
  have l4 : litHexOpen.length = 4 := by decide
  have l5 : litAfterStart.length = 9 := by decide
  have l6 : litLength.length = 6 := by decide
  have l7 : litHexClose.length = 2 := by decide
  omega

theorem dumpFile_buf (rank s : Nat) (data : List Nat) (h200 : 200 ≤ s)
    (hl : (preamble rank s data.length).length ≤ 200) :
    (List.range 200).map (dumpFile rank s data) =
      preamble rank s data.length ++
        List.replicate (200 - (preamble rank s data.length).length) 0 := by
  rw [← range_map_getD _ 200 hl]
  apply List.map_congr_left
  intro o ho
  rw [List.mem_range] at ho
  unfold dumpFile
  rw [if_neg (by omega), if_pos ho]

theorem scanField_start (rank s len pad : Nat) :
    scanField litStartOffset (preamble rank s len ++ List.replicate pad 0) =
      some s := by
  have hdecomp : preamble rank s len ++ List.replicate pad 0 =
      (litCephMds ++ decStr rank ++ litJournalDump) ++
        (litStartOffset ++ 32 :: (decStr s ++
          (litHexOpen ++ hexStr s ++ litAfterStart ++ litLength ++ [32] ++
           decStr len ++ litHexOpen ++ hexStr len ++ litHexClose ++ [4] ++
           List.replicate pad 0))) := by
    simp [preamble, List.append_assoc]
  rw [hdecomp]
  apply scanField_at
  · apply no_occ_before _ _ _ 7 (by decide)
    · intro b hb
      rw [show litStartOffset.getD 7 0 = 102 from rfl]
      rcases List.mem_append.1 hb with hb | hb
      · rcases List.mem_append.1 hb with hb | hb
        · exact (by decide : ∀ b ∈ litCephMds, b ≠ 102) b hb
        · have := decStr_mem hb; omega
      · exact (by decide : ∀ b ∈ litJournalDump, b ≠ 102) b hb
    · refine no_occ_tail _ _ _ _ (by decide) ?_
      rw [show litStartOffset.getD 0 0 = 115 from rfl]
      exact fun j h1 h2 =>
        (by decide : ∀ j < litJournalDump.length,
          litJournalDump.length - 7 ≤ j → litJournalDump.getD j 0 ≠ 115) j h2 h1
  · intro b hb
    have hh : (litHexOpen ++ hexStr s ++ litAfterStart ++ litLength ++ [32] ++
        decStr len ++ litHexOpen ++ hexStr len ++ litHexClose ++ [4] ++
        List.replicate pad 0).head? = some 32 := by
      rw [show litHexOpen ++ hexStr s ++ litAfterStart ++ litLength ++ [32] ++
          decStr len ++ litHexOpen ++ hexStr len ++ litHexClose ++ [4] ++
          List.replicate pad 0 =
          32 :: ([40, 48, 120] ++ hexStr s ++ litAfterStart ++ litLength ++ [32] ++
          decStr len ++ litHexOpen ++ hexStr len ++ litHexClose ++ [4] ++
          List.replicate pad 0) by simp [litHexOpen, List.append_assoc]]
      rfl
    rw [hh] at hb
    simp at hb
    subst hb
    decide

theorem scanField_length (rank s len pad : Nat) :
    scanField litLength (preamble rank s len ++ List.replicate pad 0) =
      some len := by
  have hdecomp : preamble rank s len ++ List.replicate pad 0 =
      (litCephMds ++ decStr rank ++ litJournalDump ++ litStartOffset ++ [32] ++
       decStr s ++ litHexOpen ++ hexStr s ++ litAfterStart) ++
        (litLength ++ 32 :: (decStr len ++
          (litHexOpen ++ hexStr len ++ litHexClose ++ [4] ++
           List.replicate pad 0))) := by
    simp [preamble, List.append_assoc]
  rw [hdecomp]
  apply scanField_at
  · apply no_occ_before _ _ _ 3 (by decide)
    · intro b hb
      rw [show litLength.getD 3 0 = 103 from rfl]
      rcases List.mem_append.1 hb with hb | hb
      · rcases List.mem_append.1 hb with hb | hb
        · rcases List.mem_append.1 hb with hb | hb
          · rcases List.mem_append.1 hb with hb | hb
            · rcases List.mem_append.1 hb with hb | hb
              · rcases List.mem_append.1 hb with hb | hb
                · rcases List.mem_append.1 hb with hb | hb
                  · rcases List.mem_append.1 hb with hb | hb
                    · exact (by decide : ∀ b ∈ litCephMds, b ≠ 103) b hb
                    · have := decStr_mem hb; omega
                  · exact (by decide : ∀ b ∈ litJournalDump, b ≠ 103) b hb
                · exact (by decide : ∀ b ∈ litStartOffset, b ≠ 103) b hb
              · simp at hb; omega
            · have := decStr_mem hb; omega
          · exact (by decide : ∀ b ∈ litHexOpen, b ≠ 103) b hb
        · have := hexStr_mem hb; omega
      · exact (by decide : ∀ b ∈ litAfterStart, b ≠ 103) b hb
    · refine no_occ_tail _ _ _ _ (by decide) ?_
      rw [show litLength.getD 0 0 = 108 from rfl]
      exact fun j h1 h2 =>
        (by decide : ∀ j < litAfterStart.length,
          litAfterStart.length - 3 ≤ j → litAfterStart.getD j 0 ≠ 108) j h2 h1
  · intro b hb
    have hh : (litHexOpen ++ hexStr len ++ litHexClose ++ [4] ++
        List.replicate pad 0).head? = some 32 := by
      rw [show litHexOpen ++ hexStr len ++ litHexClose ++ [4] ++
          List.replicate pad 0 =
          32 :: ([40, 48, 120] ++ hexStr len ++ litHexClose ++ [4] ++
          List.replicate pad 0) by simp [litHexOpen, List.append_assoc]]
      rfl
    rw [hh] at hb
    simp at hb
    subst hb
    decide

theorem undumpWrites_dumpFile (rank s : Nat) (data : List Nat) (pid : Nat)
    (h200 : 200 ≤ s) (hrank : rank < 2 ^ 64) (hs : s < 2 ^ 64)
    (hlen : data.length < 2 ^ 64) :
    undumpWrites pid (dumpFile rank s data) =
      some (.full 0 (encodeHeader
          { magic := CEPH_FS_ONDISK_MAGIC, trimmed_pos := s, expire_pos := s,
            write_pos := s + data.length, object_size := fl_object_size_default,
            pg_pool := pid }) ::
        chunkWrites (dumpFile rank s data) data.length s data.length) := by
  simp only [undumpWrites]
  rw [dumpFile_buf rank s data h200 (preamble_length_le _ _ _ hrank hs hlen)]
  rw [scanField_start, scanField_length]

theorem leBytes_length : ∀ k n, (leBytes k n).length = k := by
  intro k
  induction k with
  | zero => intro n; rfl
  | succ k ih => intro n; simp [leBytes, ih]

theorem leVal_leBytes : ∀ k n (rest : List Nat),
    leVal k (leBytes k n ++ rest) = n % 256 ^ k := by
  intro k
  induction k with
  | zero => intro n rest; simp [leBytes, leVal, Nat.mod_one]
  | succ k ih =>
    intro n rest
    rw [show leBytes (k + 1) n = n % 256 :: leBytes k (n / 256) from rfl]
    rw [List.cons_append]
    rw [show leVal (k + 1) (n % 256 :: (leBytes k (n / 256) ++ rest)) =
          n % 256 + 256 * leVal k (leBytes k (n / 256) ++ rest) from rfl]
    rw [ih]
    rw [show (256 : Nat) ^ (k + 1) = 256 * 256 ^ k by ring, Nat.mod_mul]

theorem readLE_leBytes (k n : Nat) (rest : List Nat) :
    readLE k (leBytes k n ++ rest) = some (n % 256 ^ k, rest) := by
  unfold readLE
  rw [if_neg (by simp [leBytes_length])]
  rw [leVal_leBytes]
  rw [List.drop_left' (leBytes_length k n)]

theorem decode_encodeHeader (h : Header) (rest : List Nat)
    (hm : h.magic.length < 2 ^ 32)
    (h1 : h.trimmed_pos < 2 ^ 64) (h2 : h.expire_pos < 2 ^ 64)
    (h3 : h.write_pos < 2 ^ 64) (h4 : h.object_size < 2 ^ 64)
    (h5 : h.pg_pool < 2 ^ 64) :
    decodeHeader (encodeHeader h ++ rest) = (h, true) := by
  have e32 : (256 : Nat) ^ 4 = 2 ^ 32 := by norm_num
  have e64 : (256 : Nat) ^ 8 = 2 ^ 64 := by norm_num
  unfold encodeHeader decodeHeader readPrefixed
  simp only [List.append_assoc, readLE_leBytes, e32, e64, Nat.mod_eq_of_lt hm,
    Nat.mod_eq_of_lt h1, Nat.mod_eq_of_lt h2, Nat.mod_eq_of_lt h3,
    Nat.mod_eq_of_lt h4, Nat.mod_eq_of_lt h5, List.take_left, List.drop_left]
  rw [if_neg (by simp)]
  simp only [readLE_leBytes, e64, Nat.mod_eq_of_lt h1, Nat.mod_eq_of_lt h2,
    Nat.mod_eq_of_lt h3, Nat.mod_eq_of_lt h4, Nat.mod_eq_of_lt h5]

theorem getD_append_replicate_zero (c : List Nat) (m o : Nat) :
    (c ++ List.replicate m 0).getD o 0 = c.getD o 0 := by
  by_cases ho : o < c.length
  · exact getD_append_left ho
  · rw [getD_append_right (by omega)]
    rw [List.getD_eq_getElem?_getD c, List.getElem?_eq_none (by omega)]
    by_cases hm : o - c.length < m
    · rw [List.getD_eq_getElem?_getD, List.getElem?_eq_getElem (by simpa using hm)]
      simp
    · rw [List.getD_eq_getElem?_getD, List.getElem?_eq_none (by simpa using hm)]

theorem storeByte_length_ge (c : List Nat) (off b : Nat) :
    c.length ≤ (storeByte c off b).length ∧ off < (storeByte c off b).length := by
  unfold storeByte
  simp only [List.length_set, List.length_append, List.length_replicate]
  omega

theorem storeByte_getD_self (c : List Nat) (off b : Nat) :
    (storeByte c off b).getD off 0 = b := by
  unfold storeByte
  rw [List.getD_eq_getElem?_getD,
    List.getElem?_set_self (by simp [List.length_append]; omega)]
  rfl

theorem storeByte_getD_ne (c : List Nat) (off b o : Nat) (hne : o ≠ off) :
    (storeByte c off b).getD o 0 = c.getD o 0 := by
  unfold storeByte
  rw [List.getD_eq_getElem?_getD, List.getElem?_set_ne (by omega)]
  rw [← List.getD_eq_getElem?_getD]
  exact getD_append_replicate_zero c _ o

theorem storeByte_take (c : List Nat) (off b k : Nat) (hk1 : k ≤ off)
    (hk2 : k ≤ c.length) : (storeByte c off b).take k = c.take k := by
  unfold storeByte
  apply List.ext_getElem
  · simp only [List.length_take, List.length_set, List.length_append,
      List.length_replicate]
    omega
  · intro i h1 h2
    simp only [List.length_take] at h1 h2
    rw [List.getElem_take, List.getElem_take]
    rw [List.getElem_set_ne (by omega)]
    exact List.getElem_append_left (by omega)

theorem applyStream_getD (S idx : Nat) (hS : 0 < S) :
    ∀ (bs : List Nat) (c : List Nat) (pos off : Nat), off < S →
      (applyStream S idx c pos bs).getD off 0 =
        if pos ≤ idx * S + off ∧ idx * S + off < pos + bs.length
        then bs.getD (idx * S + off - pos) 0 else c.getD off 0 := by
  intro bs
  induction bs with
  | nil =>
    intro c pos off hoff
    simp only [applyStream, List.length_nil]
    rw [if_neg (by omega)]
  | cons b bs ih =>
    intro c pos off hoff
    simp only [applyStream]
    rw [ih _ _ _ hoff]
    by_cases hpos : idx * S + off = pos
    · have hp : pos = off + S * idx := by
        rw [Nat.mul_comm S idx]
        omega
      have hdivIdx : pos / S = idx := by
        rw [hp, Nat.add_mul_div_left _ _ hS, Nat.div_eq_of_lt hoff]
        omega
      have hmodOff : pos % S = off := by
        rw [hp, Nat.add_mul_mod_self_left, Nat.mod_eq_of_lt hoff]
      have hc1 : ¬ (pos + 1 ≤ idx * S + off ∧ idx * S + off < pos + 1 + bs.length) := by
        omega
      have hc2 : pos ≤ idx * S + off ∧ idx * S + off < pos + (b :: bs).length := by
        simp only [List.length_cons]
        omega
      rw [if_neg hc1, if_pos hc2, if_pos hdivIdx, hmodOff, storeByte_getD_self,
        show idx * S + off - pos = 0 by omega]
      rfl
    · by_cases hin : pos + 1 ≤ idx * S + off ∧ idx * S + off < pos + 1 + bs.length
      · have hc2 : pos ≤ idx * S + off ∧ idx * S + off < pos + (b :: bs).length := by
          simp only [List.length_cons]
          omega
        rw [if_pos hin, if_pos hc2,
          show idx * S + off - pos = (idx * S + off - (pos + 1)) + 1 by omega]
        rfl
      · have hc2 : ¬ (pos ≤ idx * S + off ∧ idx * S + off < pos + (b :: bs).length) := by
          simp only [List.length_cons]
          omega
        rw [if_neg hin, if_neg hc2]
        by_cases htouch : pos / S = idx
        · rw [if_pos htouch]
          apply storeByte_getD_ne
          intro hcon
          apply hpos
          have hdm := Nat.div_add_mod pos S
          rw [htouch] at hdm
          rw [hcon, Nat.mul_comm]
          exact hdm
        · rw [if_neg htouch]

theorem applyStream_take (S idx : Nat) :
    ∀ (bs : List Nat) (c : List Nat) (pos k : Nat), k ≤ c.length →
      idx * S + k ≤ pos →
      (applyStream S idx c pos bs).take k = c.take k ∧
      k ≤ (applyStream S idx c pos bs).length := by
  intro bs
  induction bs with
  | nil => intro c pos k hk _; exact ⟨rfl, hk⟩
  | cons b bs ih =>
    intro c pos k hk hpos
    simp only [applyStream]
    by_cases htouch : pos / S = idx
    · rw [if_pos htouch]
      have hst := storeByte_length_ge c (pos % S) b
      have hkk : k ≤ pos % S := by
        have hdm := Nat.div_add_mod pos S
        rw [htouch] at hdm
        have : idx * S = S * idx := Nat.mul_comm idx S
        omega
      obtain ⟨ht, hl⟩ := ih (storeByte c (pos % S) b) (pos + 1) k (by omega) (by omega)
      rw [ht, storeByte_take c (pos % S) b k hkk hk]
      exact ⟨rfl, hl⟩
    · rw [if_neg htouch]
      exact ih c (pos + 1) k hk (by omega)

theorem contentOf_append (S : Nat) (ws ws2 : List PoolWrite) (idx : Nat) :
    contentOf S (ws ++ ws2) idx = ws2.foldl (applyWrite S idx) (contentOf S ws idx) := by
  unfold contentOf
  rw [List.foldl_append]

theorem byteAt_append_stream (S : Nat) (hS : 0 < S) (ws : List PoolWrite)
    (p : Nat) (bs : List Nat) (o : Nat) :
    byteAt S (ws ++ [.stream p bs]) o =
      if p ≤ o ∧ o < p + bs.length then bs.getD (o - p) 0 else byteAt S ws o := by
  unfold byteAt
  rw [contentOf_append]
  simp only [List.foldl_cons, List.foldl_nil, applyWrite]
  rw [applyStream_getD S (o / S) hS bs _ p (o % S) (Nat.mod_lt o hS)]
  rw [show o / S * S + o % S = o by
    have := Nat.div_add_mod o S
    have : o / S * S = S * (o / S) := Nat.mul_comm _ _
    omega]

theorem chunkWrites_byteAt (file : Nat → Nat) (S : Nat) (hS : 0 < S) :
    ∀ (fuel pos left : Nat), left ≤ fuel → ∀ (ws0 : List PoolWrite) (o : Nat),
      byteAt S (ws0 ++ chunkWrites file fuel pos left) o =
        if pos ≤ o ∧ o < pos + left then file o else byteAt S ws0 o := by
  intro fuel
  induction fuel with
  | zero =>
    intro pos left hle ws0 o
    obtain rfl : left = 0 := by omega
    simp only [chunkWrites, List.append_nil]
    rw [if_neg (by omega)]
  | succ fuel ih =>
    intro pos left hle ws0 o
    by_cases h0 : left = 0
    · subst h0
      simp only [chunkWrites, ite_true, eq_self_iff_true, List.append_nil]
      rw [if_neg (by omega)]
    · simp only [chunkWrites, if_neg h0]
      rw [List.append_cons]
      have hl1 : 1 ≤ min left (1024 * 1024) := by omega
      rw [ih (pos + min left (1024 * 1024)) (left - min left (1024 * 1024))
        (by omega) _ o]
      rw [byteAt_append_stream S hS]
      simp only [List.length_map, List.length_range]
      by_cases hc1 : pos + min left (1024 * 1024) ≤ o ∧
          o < pos + min left (1024 * 1024) + (left - min left (1024 * 1024))
      · rw [if_pos hc1, if_pos (by omega)]
      · rw [if_neg hc1]
        by_cases hc2 : pos ≤ o ∧ o < pos + min left (1024 * 1024)
        · rw [if_pos hc2, if_pos (by omega)]
          rw [List.getD_eq_getElem?_getD, List.getElem?_map, List.getElem?_range
            (by omega)]
          simp only [Option.map_some', Option.getD_some]
          congr 1
          omega
        · rw [if_neg hc2, if_neg (by omega)]

theorem chunkWrites_content0_take (file : Nat → Nat) (S k : Nat) :
    ∀ (fuel pos left : Nat), k ≤ pos → ∀ (ws0 : List PoolWrite),
      k ≤ (contentOf S ws0 0).length →
      (contentOf S (ws0 ++ chunkWrites file fuel pos left) 0).take k =
        (contentOf S ws0 0).take k := by
  intro fuel
  induction fuel with
  | zero => intro pos left _ ws0 _; simp [chunkWrites]
  | succ fuel ih =>
    intro pos left hkpos ws0 hkl
    by_cases h0 : left = 0
    · subst h0
      simp [chunkWrites]
    · simp only [chunkWrites, if_neg h0]
      rw [List.append_cons]
      have hmid : contentOf S (ws0 ++ [PoolWrite.stream pos
          ((List.range (min left (1024 * 1024))).map fun j => file (pos + j))]) 0 =
          applyStream S 0 (contentOf S ws0 0) pos
            ((List.range (min left (1024 * 1024))).map fun j => file (pos + j)) := by
        rw [contentOf_append]
        simp [applyWrite]
      obtain ⟨ht, hlen⟩ := applyStream_take S 0
        ((List.range (min left (1024 * 1024))).map fun j => file (pos + j))
        (contentOf S ws0 0) pos k hkl (by omega)
      rw [ih (pos + min left (1024 * 1024)) (left - min left (1024 * 1024))
        (by omega) _ (by rw [hmid]; exact hlen)]
      rw [hmid, ht]

/-- C6 (amended): for every dump of a readable range `[s, s + |data|)`
with `s` at least the 200-byte preamble size (and 64-bit rank, offsets
and pool id), undumping the dump file into an empty pool writes the
synthetic header and the data chunks such that the pool's journal byte
range `[s, s + |data|)` equals the original bytes and the header object
decodes to a header with `expire_pos = s` and
`write_pos = s + |data|`. -/
theorem C6_dump_undump_roundtrip (rank s : Nat) (data : List Nat) (pid : Nat)
    (h200 : 200 ≤ s) (hrank : rank < 2 ^ 64) (hend : s + data.length < 2 ^ 64)
    (hpid : pid < 2 ^ 64) :
    undumpRoundTrip rank s data pid := by
  have hs : s < 2 ^ 64 := by omega
  have hlen : data.length < 2 ^ 64 := by omega
  have hS : (0 : Nat) < fl_object_size_default := by decide
  refine ⟨_, undumpWrites_dumpFile rank s data pid h200 hrank hs hlen, ?_, ?_, ?_, ?_⟩
  case _ =>
    intro j hj
    rw [show (PoolWrite.full 0 (encodeHeader
          { magic := CEPH_FS_ONDISK_MAGIC, trimmed_pos := s, expire_pos := s,
            write_pos := s + data.length, object_size := fl_object_size_default,
            pg_pool := pid }) ::
        chunkWrites (dumpFile rank s data) data.length s data.length) =
        [PoolWrite.full 0 (encodeHeader
          { magic := CEPH_FS_ONDISK_MAGIC, trimmed_pos := s, expire_pos := s,
            write_pos := s + data.length, object_size := fl_object_size_default,
            pg_pool := pid })] ++
        chunkWrites (dumpFile rank s data) data.length s data.length from rfl]
    rw [chunkWrites_byteAt (dumpFile rank s data) fl_object_size_default hS
      data.length s data.length le_rfl]
    rw [if_pos (by omega)]
    unfold dumpFile
    rw [if_pos (by omega), show s + j - s = j by omega]
  all_goals {
    have hsplit : contentOf fl_object_size_default
        (PoolWrite.full 0 (encodeHeader
          { magic := CEPH_FS_ONDISK_MAGIC, trimmed_pos := s, expire_pos := s,
            write_pos := s + data.length, object_size := fl_object_size_default,
            pg_pool := pid }) ::
         chunkWrites (dumpFile rank s data) data.length s data.length) 0 =
        encodeHeader
          { magic := CEPH_FS_ONDISK_MAGIC, trimmed_pos := s, expire_pos := s,
            write_pos := s + data.length, object_size := fl_object_size_default,
            pg_pool := pid } ++
        (contentOf fl_object_size_default
          (PoolWrite.full 0 (encodeHeader
            { magic := CEPH_FS_ONDISK_MAGIC, trimmed_pos := s, expire_pos := s,
              write_pos := s + data.length, object_size := fl_object_size_default,
              pg_pool := pid }) ::
           chunkWrites (dumpFile rank s data) data.length s data.length) 0).drop
          (encodeHeader
            { magic := CEPH_FS_ONDISK_MAGIC, trimmed_pos := s, expire_pos := s,
              write_pos := s + data.length, object_size := fl_object_size_default,
              pg_pool := pid }).length := by
      conv_lhs => rw [← List.take_append_drop
        (encodeHeader
          { magic := CEPH_FS_ONDISK_MAGIC, trimmed_pos := s, expire_pos := s,
            write_pos := s + data.length, object_size := fl_object_size_default,
            pg_pool := pid }).length
        (contentOf fl_object_size_default _ 0)]
      congr 1
      rw [show (PoolWrite.full 0 (encodeHeader
            { magic := CEPH_FS_ONDISK_MAGIC, trimmed_pos := s, expire_pos := s,
              write_pos := s + data.length, object_size := fl_object_size_default,
              pg_pool := pid }) ::
          chunkWrites (dumpFile rank s data) data.length s data.length) =
          [PoolWrite.full 0 (encodeHeader
            { magic := CEPH_FS_ONDISK_MAGIC, trimmed_pos := s, expire_pos := s,
              write_pos := s + data.length, object_size := fl_object_size_default,
              pg_pool := pid })] ++
          chunkWrites (dumpFile rank s data) data.length s data.length from rfl]
      have hlen63 : (encodeHeader
          { magic := CEPH_FS_ONDISK_MAGIC, trimmed_pos := s, expire_pos := s,
            write_pos := s + data.length, object_size := fl_object_size_default,
            pg_pool := pid }).length = 63 := by
        simp [encodeHeader, leBytes_length, List.length_append,
          show CEPH_FS_ONDISK_MAGIC.length = 19 from by decide]
      have hcont0 : contentOf fl_object_size_default
          [PoolWrite.full 0 (encodeHeader
            { magic := CEPH_FS_ONDISK_MAGIC, trimmed_pos := s, expire_pos := s,
              write_pos := s + data.length, object_size := fl_object_size_default,
              pg_pool := pid })] 0 =
          encodeHeader
            { magic := CEPH_FS_ONDISK_MAGIC, trimmed_pos := s, expire_pos := s,
              write_pos := s + data.length, object_size := fl_object_size_default,
              pg_pool := pid } := by
        simp [contentOf, applyWrite]
      rw [chunkWrites_content0_take (dumpFile rank s data) fl_object_size_default _
        data.length s data.length (by omega) _ (by rw [hcont0])]
      rw [hcont0]
      exact List.take_length _
    rw [hsplit, decode_encodeHeader _ _
      (by show CEPH_FS_ONDISK_MAGIC.length < 2 ^ 32; decide) hs hs hend
      (by show fl_object_size_default < 2 ^ 64; decide) hpid]
  }

set_option maxRecDepth 100000 in
/-- C6 (counterexample): dumping with start offset 0 — so the data
region overwrites the preamble in the dump file — breaks the round
trip: undump cannot locate the preamble fields, crashes before writing
anything, and the round-trip property fails at this input. -/
theorem C6_roundtrip_fails_cex :
    ¬ undumpRoundTrip 0 0 (List.replicate 200 7) 0 := by
  intro hrt
  obtain ⟨ws, hw, -⟩ := hrt
  rw [show undumpWrites 0 (dumpFile 0 0 (List.replicate 200 7)) = none from
    by decide] at hw
  exact Option.noConfusion hw

/-- Witness for C6 (amended): the round trip at rank 0, start offset
200, one data byte, pool id 3. -/
theorem C6_dump_undump_roundtrip_witness :
    (200 ≤ 200 ∧ (0 : Nat) < 2 ^ 64 ∧ 200 + ([7] : List Nat).length < 2 ^ 64 ∧
     (3 : Nat) < 2 ^ 64) ∧
    undumpRoundTrip 0 200 [7] 3 :=
  ⟨⟨by decide, by decide, by decide, by decide⟩,
   C6_dump_undump_roundtrip 0 200 [7] 3 (by decide) (by decide) (by decide)
     (by decide)⟩
